import Mathlib

/-!
Verification development for the Aether Studio collaboration core.

The definitions below are a shallow embedding of the session
synchronization layer of the repository: the `FileNode` workspace tree
and the sibling-list merge `mergeNodes` from `src/App.tsx`, the
collaboration event envelopes from `src/types.ts`, the presence
register transition of the editor component, and the session/identity
resolution of `CollaborationManager`.
-/

/-- Mirrors the `FileType` string enum of `src/types.ts`. -/
inductive FileType where
  | file
  | directory
deriving DecidableEq, Repr

/-- Mirrors the `'modified' | 'staged'` dirty status of `src/types.ts`. -/
inductive DirtyStatus where
  | modified
  | staged
deriving DecidableEq, Repr

/-- Mirrors the `FileNode` interface of `src/types.ts`.  Optional fields
become `Option`; the opaque `FileSystemHandle` is modelled as a `Nat`
identifier since the merge logic only copies it around. -/
inductive FileNode where
  | mk (name : String) (path : String) (ftype : FileType)
       (url : Option String) (content : Option String)
       (children : Option (List FileNode))
       (isOpen : Option Bool) (isLoading : Option Bool)
       (status : Option DirtyStatus) (isLocal : Option Bool)
       (handle : Option Nat) : FileNode

def FileNode.name : FileNode → String
  | .mk n _ _ _ _ _ _ _ _ _ _ => n

def FileNode.path : FileNode → String
  | .mk _ p _ _ _ _ _ _ _ _ _ => p

def FileNode.ftype : FileNode → FileType
  | .mk _ _ t _ _ _ _ _ _ _ _ => t

def FileNode.url : FileNode → Option String
  | .mk _ _ _ u _ _ _ _ _ _ _ => u

def FileNode.content : FileNode → Option String
  | .mk _ _ _ _ c _ _ _ _ _ _ => c

def FileNode.children : FileNode → Option (List FileNode)
  | .mk _ _ _ _ _ ch _ _ _ _ _ => ch

def FileNode.isOpen : FileNode → Option Bool
  | .mk _ _ _ _ _ _ o _ _ _ _ => o

def FileNode.isLoading : FileNode → Option Bool
  | .mk _ _ _ _ _ _ _ ld _ _ _ => ld

def FileNode.status : FileNode → Option DirtyStatus
  | .mk _ _ _ _ _ _ _ _ st _ _ => st

def FileNode.isLocal : FileNode → Option Bool
  | .mk _ _ _ _ _ _ _ _ _ il _ => il

def FileNode.handle : FileNode → Option Nat
  | .mk _ _ _ _ _ _ _ _ _ _ h => h

@[simp] theorem FileNode.name_mk (n p t u c ch o ld st il h) :
    (FileNode.mk n p t u c ch o ld st il h).name = n := rfl

@[simp] theorem FileNode.path_mk (n p t u c ch o ld st il h) :
    (FileNode.mk n p t u c ch o ld st il h).path = p := rfl

@[simp] theorem FileNode.ftype_mk (n p t u c ch o ld st il h) :
    (FileNode.mk n p t u c ch o ld st il h).ftype = t := rfl

@[simp] theorem FileNode.url_mk (n p t u c ch o ld st il h) :
    (FileNode.mk n p t u c ch o ld st il h).url = u := rfl

@[simp] theorem FileNode.content_mk (n p t u c ch o ld st il h) :
    (FileNode.mk n p t u c ch o ld st il h).content = c := rfl

@[simp] theorem FileNode.children_mk (n p t u c ch o ld st il h) :
    (FileNode.mk n p t u c ch o ld st il h).children = ch := rfl

@[simp] theorem FileNode.isOpen_mk (n p t u c ch o ld st il h) :
    (FileNode.mk n p t u c ch o ld st il h).isOpen = o := rfl

@[simp] theorem FileNode.isLoading_mk (n p t u c ch o ld st il h) :
    (FileNode.mk n p t u c ch o ld st il h).isLoading = ld := rfl

@[simp] theorem FileNode.status_mk (n p t u c ch o ld st il h) :
    (FileNode.mk n p t u c ch o ld st il h).status = st := rfl

@[simp] theorem FileNode.isLocal_mk (n p t u c ch o ld st il h) :
    (FileNode.mk n p t u c ch o ld st il h).isLocal = il := rfl

@[simp] theorem FileNode.handle_mk (n p t u c ch o ld st il h) :
    (FileNode.mk n p t u c ch o ld st il h).handle = h := rfl

theorem FileNode.sizeOf_children_lt (n : FileNode) (c : List FileNode)
    (h : n.children = some c) : sizeOf c < sizeOf n := by
  cases n with
  | mk nm p t u co ch o ld st il hd =>
    simp only [FileNode.children] at h
    subst h
    simp
    omega

/-- A JavaScript `Map` with string keys, modelled as an association list
in insertion order.  `jsGet` is `Map.get`. -/
def jsGet {α : Type} : List (String × α) → String → Option α
  | [], _ => none
  | (k2, v) :: rest, k => if k2 = k then some v else jsGet rest k

/-- `Map.set`: an existing key keeps its position and gets the new value,
a new key is appended at the end. -/
def jsSet {α : Type} : List (String × α) → String → α → List (String × α)
  | [], k, v => [(k, v)]
  | (k2, v2) :: rest, k, v =>
      if k2 = k then (k2, v) :: rest else (k2, v2) :: jsSet rest k v

/-- `Map.delete`: removes the entry with the given key (keys are unique
in a real `Map`, so removing the first occurrence is faithful). -/
def jsDelete {α : Type} : List (String × α) → String → List (String × α)
  | [], _ => []
  | (k2, v2) :: rest, k =>
      if k2 = k then rest else (k2, v2) :: jsDelete rest k

/-- `new Map(local.map(n => [n.path, n]))` from `mergeNodes` in
`src/App.tsx`: the `Map` constructor performs repeated `set` calls. -/
def buildMap (l : List FileNode) : List (String × FileNode) :=
  l.foldl (fun m n => jsSet m n.path n) []

/-- `localMap.forEach(node => merged.push(node))`: the values of the map
in insertion order. -/
def mapValues (m : List (String × FileNode)) : List FileNode :=
  m.map (fun e => e.2)

/-- The object spread `{ ...remoteNode, handle: localNode.handle,
isLocal: localNode.isLocal, isOpen: localNode.isOpen }` from
`mergeNodes` in `src/App.tsx`. -/
def mergeBase (l r : FileNode) : FileNode :=
  match r with
  | .mk n p t u c ch _ ld st _ _ =>
      .mk n p t u c ch l.isOpen ld st l.isLocal l.handle

/-- The mutation `mergedNode.children = ...` from `mergeNodes`. -/
def setChildren (n : FileNode) (c : Option (List FileNode)) : FileNode :=
  match n with
  | .mk nm p t u co _ o ld st il h => .mk nm p t u co c o ld st il h

mutual

/-- The `remote.forEach` loop of `mergeNodes` in `src/App.tsx`, with the
local `Map` threaded explicitly.  Returns the nodes pushed by the loop
together with the final state of the map. -/
def mergeGo (m : List (String × FileNode)) :
    List FileNode → List FileNode × List (String × FileNode)
  | [] => ([], m)
  | r :: rest =>
      match jsGet m r.path with
      | some l =>
          let node :=
            match hrc : r.children, l.children with
            | some rc, some lc =>
                setChildren (mergeBase l r) (some (mergeNodes lc rc))
            | _, _ => mergeBase l r
          let out := mergeGo (jsDelete m r.path) rest
          (node :: out.1, out.2)
      | none =>
          let out := mergeGo m rest
          (r :: out.1, out.2)
termination_by rem => sizeOf rem
decreasing_by
  all_goals simp_wf
  all_goals try omega
  all_goals
    have := FileNode.sizeOf_children_lt r rc hrc
    omega

/-- `mergeNodes(local, remote)` from `src/App.tsx` lines 165-198: merge a
remote sibling list into a local one, keyed by `path`. -/
def mergeNodes (localNodes remote : List FileNode) : List FileNode :=
  let out := mergeGo (buildMap localNodes) remote
  out.1 ++ mapValues out.2
termination_by sizeOf remote + 1
decreasing_by
  simp_wf <;> omega

end

/-- The node pushed by `mergeNodes` when a local sibling with the same
path exists: remote data, with `handle`, `isLocal`, `isOpen` restored
from the local node, and children merged when both sides carry a
children list. -/
def mergeHitNode (l r : FileNode) : FileNode :=
  match r.children, l.children with
  | some rc, some lc => setChildren (mergeBase l r) (some (mergeNodes lc rc))
  | _, _ => mergeBase l r

/-- The node produced for one remote sibling against a fixed local map. -/
def mergeStep (m : List (String × FileNode)) (r : FileNode) : FileNode :=
  match jsGet m r.path with
  | some l => mergeHitNode l r
  | none => r

theorem mergeGo_nil (m : List (String × FileNode)) :
    mergeGo m [] = ([], m) := by
  simp [mergeGo]

theorem mergeGo_cons_hit (m : List (String × FileNode)) (r : FileNode)
    (rest : List FileNode) (l : FileNode) (h : jsGet m r.path = some l) :
    mergeGo m (r :: rest) =
      (mergeHitNode l r :: (mergeGo (jsDelete m r.path) rest).1,
       (mergeGo (jsDelete m r.path) rest).2) := by
  rw [mergeGo, h]
  cases hrc : r.children <;> cases hlc : l.children <;>
    simp [mergeHitNode, hrc, hlc]

theorem mergeGo_cons_miss (m : List (String × FileNode)) (r : FileNode)
    (rest : List FileNode) (h : jsGet m r.path = none) :
    mergeGo m (r :: rest) = (r :: (mergeGo m rest).1, (mergeGo m rest).2) := by
  rw [mergeGo, h]

theorem mergeNodes_def (L R : List FileNode) :
    mergeNodes L R =
      (mergeGo (buildMap L) R).1 ++ mapValues (mergeGo (buildMap L) R).2 := by
  rw [mergeNodes]

@[simp] theorem mergeBase_path (l r : FileNode) :
    (mergeBase l r).path = r.path := by
  cases r; simp [mergeBase]

@[simp] theorem mergeBase_content (l r : FileNode) :
    (mergeBase l r).content = r.content := by
  cases r; simp [mergeBase]

@[simp] theorem mergeBase_status (l r : FileNode) :
    (mergeBase l r).status = r.status := by
  cases r; simp [mergeBase]

@[simp] theorem mergeBase_children (l r : FileNode) :
    (mergeBase l r).children = r.children := by
  cases r; simp [mergeBase]

@[simp] theorem mergeBase_isOpen (l r : FileNode) :
    (mergeBase l r).isOpen = l.isOpen := by
  cases r; simp [mergeBase]

@[simp] theorem mergeBase_isLocal (l r : FileNode) :
    (mergeBase l r).isLocal = l.isLocal := by
  cases r; simp [mergeBase]

@[simp] theorem mergeBase_handle (l r : FileNode) :
    (mergeBase l r).handle = l.handle := by
  cases r; simp [mergeBase]

@[simp] theorem setChildren_path (n : FileNode) (c : Option (List FileNode)) :
    (setChildren n c).path = n.path := by
  cases n; simp [setChildren]

@[simp] theorem setChildren_content (n : FileNode) (c : Option (List FileNode)) :
    (setChildren n c).content = n.content := by
  cases n; simp [setChildren]

@[simp] theorem setChildren_status (n : FileNode) (c : Option (List FileNode)) :
    (setChildren n c).status = n.status := by
  cases n; simp [setChildren]

@[simp] theorem setChildren_children (n : FileNode) (c : Option (List FileNode)) :
    (setChildren n c).children = c := by
  cases n; simp [setChildren]

@[simp] theorem setChildren_isOpen (n : FileNode) (c : Option (List FileNode)) :
    (setChildren n c).isOpen = n.isOpen := by
  cases n; simp [setChildren]

@[simp] theorem setChildren_isLocal (n : FileNode) (c : Option (List FileNode)) :
    (setChildren n c).isLocal = n.isLocal := by
  cases n; simp [setChildren]

@[simp] theorem setChildren_handle (n : FileNode) (c : Option (List FileNode)) :
    (setChildren n c).handle = n.handle := by
  cases n; simp [setChildren]

@[simp] theorem mergeHitNode_path (l r : FileNode) :
    (mergeHitNode l r).path = r.path := by
  unfold mergeHitNode; split <;> simp

@[simp] theorem mergeHitNode_content (l r : FileNode) :
    (mergeHitNode l r).content = r.content := by
  unfold mergeHitNode; split <;> simp

@[simp] theorem mergeHitNode_status (l r : FileNode) :
    (mergeHitNode l r).status = r.status := by
  unfold mergeHitNode; split <;> simp

@[simp] theorem mergeHitNode_isOpen (l r : FileNode) :
    (mergeHitNode l r).isOpen = l.isOpen := by
  unfold mergeHitNode; split <;> simp

@[simp] theorem mergeHitNode_isLocal (l r : FileNode) :
    (mergeHitNode l r).isLocal = l.isLocal := by
  unfold mergeHitNode; split <;> simp

@[simp] theorem mergeHitNode_handle (l r : FileNode) :
    (mergeHitNode l r).handle = l.handle := by
  unfold mergeHitNode; split <;> simp

theorem mergeHitNode_children_both (l r : FileNode) (rc lc : List FileNode)
    (hrc : r.children = some rc) (hlc : l.children = some lc) :
    (mergeHitNode l r).children = some (mergeNodes lc rc) := by
  unfold mergeHitNode
  split
  · rename_i rc2 lc2 h1 h2
    rw [hrc] at h1
    rw [hlc] at h2
    cases h1; cases h2
    simp
  · rename_i hne
    exact (hne rc lc hrc hlc).elim

theorem mergeHitNode_children_other (l r : FileNode)
    (h : r.children = none ∨ l.children = none) :
    (mergeHitNode l r).children = r.children := by
  unfold mergeHitNode
  split
  · rename_i rc2 lc2 h1 h2
    rcases h with h | h <;> simp [h] at h1 h2
  · simp

theorem jsGet_jsDelete_ne {α : Type} (m : List (String × α)) (k k2 : String)
    (h : k ≠ k2) : jsGet (jsDelete m k) k2 = jsGet m k2 := by
  induction m with
  | nil => rfl
  | cons e rest ih =>
    obtain ⟨k3, v⟩ := e
    by_cases h3 : k3 = k
    · subst h3
      simp [jsDelete, jsGet, h]
    · simp only [jsDelete, if_neg h3]
      by_cases h4 : k3 = k2
      · simp [jsGet, h4]
      · simp [jsGet, h4, ih]

theorem jsGet_eq_none_iff {α : Type} (m : List (String × α)) (k : String) :
    jsGet m k = none ↔ ∀ e ∈ m, e.1 ≠ k := by
  induction m with
  | nil => simp [jsGet]
  | cons e rest ih =>
    obtain ⟨k2, v⟩ := e
    by_cases h2 : k2 = k
    · subst h2
      simp [jsGet]
    · simp [jsGet, h2, ih]

theorem jsSet_append {α : Type} (m : List (String × α)) (k : String) (v : α)
    (h : ∀ e ∈ m, e.1 ≠ k) : jsSet m k v = m ++ [(k, v)] := by
  induction m with
  | nil => rfl
  | cons e rest ih =>
    obtain ⟨k2, v2⟩ := e
    have hk2 : k2 ≠ k := h (k2, v2) (by simp)
    simp only [jsSet, if_neg hk2, List.cons_append, List.cons.injEq, true_and]
    exact ih (fun e he => h e (by simp [he]))

theorem jsDelete_eq_filter {α : Type} (m : List (String × α)) (k : String)
    (h : (m.map Prod.fst).Nodup) :
    jsDelete m k = m.filter (fun e => decide (e.1 ≠ k)) := by
  induction m with
  | nil => rfl
  | cons e rest ih =>
    obtain ⟨k2, v⟩ := e
    simp only [List.map_cons, List.nodup_cons] at h
    by_cases h2 : k2 = k
    · subst h2
      simp only [jsDelete, if_pos rfl]
      symm
      rw [List.filter_cons_of_neg (by simp)]
      apply List.filter_eq_self.2
      intro e he
      simp only [decide_eq_true_eq, ne_eq]
      intro hek
      exact h.1 (hek ▸ List.mem_map_of_mem Prod.fst he)
    · simp only [jsDelete, if_neg h2]
      rw [List.filter_cons_of_pos (by simp [h2])]
      rw [ih h.2]

theorem jsDelete_keys_nodup {α : Type} (m : List (String × α)) (k : String)
    (h : (m.map Prod.fst).Nodup) :
    ((jsDelete m k).map Prod.fst).Nodup := by
  rw [jsDelete_eq_filter m k h]
  exact List.Nodup.sublist ((List.filter_sublist m).map Prod.fst) h

theorem buildMap_go (L : List FileNode) :
    ∀ acc : List (String × FileNode),
      ((acc.map Prod.fst ++ L.map FileNode.path).Nodup) →
      L.foldl (fun m n => jsSet m n.path n) acc =
        acc ++ L.map (fun n => (n.path, n)) := by
  induction L with
  | nil => intro acc _; simp
  | cons n rest ih =>
    intro acc h
    have hmem : n.path ∉ acc.map Prod.fst := by
      rw [List.nodup_append] at h
      intro hc
      exact h.2.2 hc (by simp)
    have hstep : jsSet acc n.path n = acc ++ [(n.path, n)] := by
      apply jsSet_append
      intro e he hek
      exact hmem (hek ▸ List.mem_map_of_mem Prod.fst he)
    simp only [List.foldl_cons, hstep]
    rw [ih (acc ++ [(n.path, n)]) (by simpa using h)]
    simp

theorem buildMap_eq (L : List FileNode) (hL : (L.map FileNode.path).Nodup) :
    buildMap L = L.map (fun n => (n.path, n)) := by
  have := buildMap_go L [] (by simpa using hL)
  simpa [buildMap] using this

theorem jsGet_assoc_mem (L : List FileNode) (hL : (L.map FileNode.path).Nodup)
    (l : FileNode) (hl : l ∈ L) :
    jsGet (L.map (fun n => (n.path, n))) l.path = some l := by
  induction L with
  | nil => cases hl
  | cons n rest ih =>
    simp only [List.map_cons, List.nodup_cons] at hL
    by_cases hp : n.path = l.path
    · have : l = n := by
        rcases List.mem_cons.1 hl with h | h
        · exact h
        · exact absurd (hp ▸ List.mem_map_of_mem FileNode.path h) hL.1
      subst this
      simp [jsGet, hp]
    · have hl2 : l ∈ rest := by
        rcases List.mem_cons.1 hl with h | h
        · exact absurd (h ▸ rfl) hp
        · exact h
      simp only [List.map_cons, jsGet, if_neg hp]
      exact ih hL.2 hl2

theorem mergeGo_fst_paths (R : List FileNode) :
    ∀ m, ((mergeGo m R).1.map FileNode.path) = R.map FileNode.path := by
  induction R with
  | nil => intro m; simp [mergeGo_nil]
  | cons r rest ih =>
    intro m
    cases hget : jsGet m r.path with
    | some l =>
      rw [mergeGo_cons_hit m r rest l hget]
      simp [ih]
    | none =>
      rw [mergeGo_cons_miss m r rest hget]
      simp [ih]

theorem mergeGo_fst_eq (R : List FileNode)
    (hR : (R.map FileNode.path).Nodup) :
    ∀ m, (mergeGo m R).1 = R.map (mergeStep m) := by
  induction R with
  | nil => intro m; simp [mergeGo_nil]
  | cons r rest ih =>
    intro m
    simp only [List.map_cons, List.nodup_cons] at hR
    cases hget : jsGet m r.path with
    | some l =>
      rw [mergeGo_cons_hit m r rest l hget]
      rw [ih hR.2 (jsDelete m r.path)]
      simp only [List.map_cons, mergeStep, hget]
      congr 1
      apply List.map_congr_left
      intro x hx
      have hxp : x.path ≠ r.path := by
        intro hc
        exact hR.1 (hc ▸ List.mem_map_of_mem FileNode.path hx)
      unfold mergeStep
      rw [jsGet_jsDelete_ne m r.path x.path (fun hc => hxp hc.symm)]
    | none =>
      rw [mergeGo_cons_miss m r rest hget]
      rw [ih hR.2 m]
      simp [mergeStep, hget]

theorem mergeGo_snd_eq (R : List FileNode) :
    ∀ m, ((m.map Prod.fst).Nodup) →
      (mergeGo m R).2 =
        m.filter (fun e => decide (e.1 ∉ R.map FileNode.path)) := by
  induction R with
  | nil =>
    intro m _
    simp [mergeGo_nil]
  | cons r rest ih =>
    intro m hm
    cases hget : jsGet m r.path with
    | some l =>
      rw [mergeGo_cons_hit m r rest l hget]
      rw [ih (jsDelete m r.path) (jsDelete_keys_nodup m r.path hm)]
      rw [jsDelete_eq_filter m r.path hm]
      rw [List.filter_filter]
      apply List.filter_congr
      intro e _
      simp only [List.map_cons, List.mem_cons, not_or, ne_eq]
      rw [Bool.and_comm, Bool.and_eq_decide]
    | none =>
      rw [mergeGo_cons_miss m r rest hget]
      rw [ih m hm]
      apply List.filter_congr
      intro e he
      have hne : e.1 ≠ r.path := (jsGet_eq_none_iff m r.path).1 hget e he
      simp only [List.map_cons, List.mem_cons, not_or, decide_eq_decide]
      exact ⟨fun h1 => ⟨hne, h1⟩, fun h1 => h1.2⟩

theorem mapValues_filter_assoc (L : List FileNode) (ps : List String) :
    mapValues ((L.map (fun n => (n.path, n))).filter
        (fun e => decide (e.1 ∉ ps))) =
      L.filter (fun n => decide (n.path ∉ ps)) := by
  induction L with
  | nil => rfl
  | cons n rest ih =>
    by_cases hp : n.path ∈ ps
    · simp only [List.map_cons]
      rw [List.filter_cons_of_neg (by simp [hp]),
        List.filter_cons_of_neg (by simp [hp])]
      exact ih
    · simp only [List.map_cons]
      rw [List.filter_cons_of_pos (by simp [hp]),
        List.filter_cons_of_pos (by simp [hp])]
      simp only [mapValues, List.map_cons] at ih ⊢
      rw [ih]

/-- Closed form of `mergeNodes` on sibling lists whose paths satisfy the
uniqueness invariant of the data model: each remote sibling yields one
output node (merged when a same-path local sibling exists, verbatim
otherwise) in remote order, followed by the local siblings whose paths
the remote list does not mention, in local order. -/
theorem mergeNodes_eq (L R : List FileNode)
    (hL : (L.map FileNode.path).Nodup) (hR : (R.map FileNode.path).Nodup) :
    mergeNodes L R =
      R.map (mergeStep (buildMap L)) ++
        L.filter (fun n => decide (n.path ∉ R.map FileNode.path)) := by
  rw [mergeNodes_def]
  have hkeys : ((buildMap L).map Prod.fst).Nodup := by
    rw [buildMap_eq L hL]
    simpa [Function.comp] using hL
  rw [mergeGo_fst_eq R hR (buildMap L)]
  rw [mergeGo_snd_eq R (buildMap L) hkeys]
  rw [buildMap_eq L hL]
  rw [mapValues_filter_assoc]

theorem mergeStep_self (T : List FileNode) (hT : (T.map FileNode.path).Nodup)
    (t : FileNode) (ht : t ∈ T) :
    mergeStep (buildMap T) t = mergeHitNode t t := by
  unfold mergeStep
  rw [buildMap_eq T hT, jsGet_assoc_mem T hT t ht]

theorem mergeBase_self (t : FileNode) : mergeBase t t = t := by
  cases t; simp [mergeBase]

theorem setChildren_self (t : FileNode) : setChildren t t.children = t := by
  cases t; simp [setChildren]

theorem FileNode.sizeOf_children_succ_lt (n : FileNode) (c : List FileNode)
    (h : n.children = some c) : sizeOf c + 1 < sizeOf n := by
  cases n with
  | mk nm p t u co ch o ld st il hd =>
    simp only [FileNode.children] at h
    subst h
    simp
    omega

mutual

/-- The structural invariant of the `WorkspaceNode` data model: sibling
paths are unique at every level of the tree. -/
def wfTree (l : List FileNode) : Bool :=
  decide ((l.map FileNode.path).Nodup) && wfAll l
termination_by sizeOf l + 1
decreasing_by
  simp_wf

def wfAll : List FileNode → Bool
  | [] => true
  | n :: rest => wfNode n && wfAll rest
termination_by l => sizeOf l
decreasing_by
  all_goals simp_wf
  all_goals omega

def wfNode (n : FileNode) : Bool :=
  match hc : n.children with
  | some c => wfTree c
  | none => true
termination_by sizeOf n
decreasing_by
  simp_wf
  have := FileNode.sizeOf_children_succ_lt n c hc
  omega

end

theorem wfTree_nodup (l : List FileNode) (h : wfTree l = true) :
    (l.map FileNode.path).Nodup := by
  rw [wfTree] at h
  exact of_decide_eq_true (Bool.and_elim_left h)

theorem wfAll_mem (l : List FileNode) (h : wfAll l = true) (t : FileNode)
    (ht : t ∈ l) : wfNode t = true := by
  induction l with
  | nil => cases ht
  | cons n rest ih =>
    rw [wfAll] at h
    rcases List.mem_cons.1 ht with h1 | h1
    · subst h1
      exact Bool.and_elim_left h
    · exact ih (Bool.and_elim_right h) h1

theorem wfTree_children (l : List FileNode) (h : wfTree l = true)
    (t : FileNode) (ht : t ∈ l) (c : List FileNode)
    (hc : t.children = some c) : wfTree c = true := by
  rw [wfTree] at h
  have hn := wfAll_mem l (Bool.and_elim_right h) t ht
  rw [wfNode] at hn
  rw [hc] at hn
  exact hn

theorem mergeHitNode_self (t : FileNode)
    (hrec : ∀ c, t.children = some c → mergeNodes c c = c) :
    mergeHitNode t t = t := by
  unfold mergeHitNode
  cases hc : t.children with
  | none => simp [mergeBase_self]
  | some c =>
    show setChildren (mergeBase t t) (some (mergeNodes c c)) = t
    rw [hrec c hc, mergeBase_self]
    conv_rhs => rw [← setChildren_self t, hc]

theorem merge_self (T : List FileNode) (hT : wfTree T = true) :
    mergeNodes T T = T := by
  have hN := wfTree_nodup T hT
  rw [mergeNodes_eq T T hN hN]
  have h2 : T.filter (fun n => decide (n.path ∉ T.map FileNode.path)) = [] := by
    rw [List.filter_eq_nil_iff]
    intro a ha
    simp only [decide_eq_true_eq, not_not]
    exact List.mem_map_of_mem FileNode.path ha
  rw [h2, List.append_nil]
  have h3 : ∀ t ∈ T, mergeStep (buildMap T) t = id t := by
    intro t ht
    rw [mergeStep_self T hN t ht]
    exact mergeHitNode_self t
      (fun c hc => merge_self c (wfTree_children T hT t ht c hc))
  rw [List.map_congr_left h3, List.map_id]
termination_by sizeOf T
decreasing_by
  have h4 := List.sizeOf_lt_of_mem ht
  have h5 := FileNode.sizeOf_children_lt t c hc
  omega

/-- Cursor position, from `Collaborator` in `src/types.ts`. -/
structure Cursor where
  lineNumber : Nat
  column : Nat
deriving DecidableEq, Repr

/-- Mirrors the `Collaborator` interface of `src/types.ts`. -/
structure Collaborator where
  id : String
  name : String
  color : String
  file : Option String
  cursor : Option Cursor
  content : Option String
  lastActive : Option Nat
deriving DecidableEq, Repr

/-- Mirrors the `CollabEvent` tagged union of `src/types.ts`. -/
inductive CollabEvent where
  | JOIN (user : Collaborator)
  | JOIN_REQUEST (user : Collaborator)
  | SYNC_INIT (fileTree : List FileNode)
  | LEAVE (userId : String)
  | UPDATE (user : Collaborator)
  | HEARTBEAT (userId : String)
  | SYNC_FILES (fileTree : List FileNode)

/-- The pieces of `App` component state touched by the
`collaborationService.subscribe` handler of `src/App.tsx`. -/
structure AppState where
  fileTree : List FileNode
  isConnecting : Bool
  isGuest : Bool

/-- The subscribe callback of `src/App.tsx` lines 139-203: given the
current state and one received envelope, produce the next state and the
list of envelopes broadcast in response.  `JOIN_REQUEST` answers with a
`SYNC_INIT` snapshot of the current tree, `SYNC_INIT` replaces the tree
and clears the connecting flag, `SYNC_FILES` merges the received tree
into the local one; all other envelopes leave the state alone. -/
def appHandle (s : AppState) (e : CollabEvent) : AppState × List CollabEvent :=
  match e with
  | .JOIN_REQUEST _ => (s, [.SYNC_INIT s.fileTree])
  | .SYNC_INIT t =>
      ({ s with fileTree := t, isConnecting := false }, [])
  | .SYNC_FILES t =>
      ({ s with fileTree := mergeNodes s.fileTree t }, [])
  | _ => (s, [])

/-- Processing a sequence of envelopes through the `App` handler. -/
def appRun (s : AppState) (es : List CollabEvent) : AppState :=
  es.foldl (fun st e => (appHandle st e).1) s

/-- The collaborator register kept by the editor component
(`collaborators` map in the `CodeEditor` subscribe handler): the effect
of one received envelope on the register.  `JOIN`/`UPDATE` from another
participant store the whole received record; `LEAVE` deletes the carried
id unconditionally; all other envelopes leave the register alone. -/
def presenceStep (myId : String) (reg : List (String × Collaborator)) :
    CollabEvent → List (String × Collaborator)
  | .JOIN u => if u.id = myId then reg else jsSet reg u.id u
  | .UPDATE u => if u.id = myId then reg else jsSet reg u.id u
  | .LEAVE uid => jsDelete reg uid
  | _ => reg

/-- Processing a sequence of envelopes through the editor's presence
register, starting from the empty register of a fresh mount. -/
def presenceRun (myId : String) (es : List CollabEvent) :
    List (String × Collaborator) :=
  es.foldl (presenceStep myId) []

/-- Startup resolution of `(sessionId, isHostUser, stored record)` from
the `CollaborationManager` constructor in `src/types.ts` (second class):
`urlToken` is `urlParams.get('session')` (`none` for `null`), `stored`
is `localStorage.getItem('aether_host_session')`, and `fresh` stands for
the randomly minted token.  `if (!token)` in the source treats both
`null` and the empty string as absent. -/
def resolveSession (urlToken : Option String) (stored : Option String)
    (fresh : String) : String × Bool × Option String :=
  match urlToken with
  | none => (fresh, true, some fresh)
  | some t =>
      if t = "" then (fresh, true, some fresh)
      else if stored = some t then (t, true, stored)
      else (t, false, stored)

theorem jsSet_jsSet {α : Type} (m : List (String × α)) (k : String)
    (v w : α) : jsSet (jsSet m k v) k w = jsSet m k w := by
  induction m with
  | nil => simp [jsSet]
  | cons e rest ih =>
    obtain ⟨k2, v2⟩ := e
    by_cases h2 : k2 = k
    · simp [jsSet, h2]
    · simp [jsSet, h2, ih]

theorem jsGet_jsSet {α : Type} (m : List (String × α)) (k k2 : String)
    (v : α) :
    jsGet (jsSet m k v) k2 = if k = k2 then some v else jsGet m k2 := by
  induction m with
  | nil => simp [jsSet, jsGet]
  | cons e rest ih =>
    obtain ⟨k3, v3⟩ := e
    by_cases h3 : k3 = k
    · subst h3
      by_cases h4 : k3 = k2
      · simp [jsSet, jsGet, h4]
      · simp [jsSet, jsGet, h4]
    · by_cases h4 : k3 = k2
      · subst h4
        have : ¬ k = k3 := fun hc => h3 hc.symm
        simp [jsSet, jsGet, h3, this]
      · simp [jsSet, jsGet, h3, h4, ih]

theorem jsDelete_of_get_none {α : Type} (m : List (String × α)) (k : String)
    (h : jsGet m k = none) : jsDelete m k = m := by
  induction m with
  | nil => rfl
  | cons e rest ih =>
    obtain ⟨k2, v⟩ := e
    by_cases h2 : k2 = k
    · simp [jsGet, h2] at h
    · simp only [jsGet, if_neg h2] at h
      simp [jsDelete, h2, ih h]

theorem jsGet_jsDelete_none {α : Type} (m : List (String × α)) (k k2 : String)
    (h : jsGet m k2 = none) : jsGet (jsDelete m k) k2 = none := by
  by_cases hk : k = k2
  · subst hk
    rw [jsDelete_of_get_none m k h]
    exact h
  · rw [jsGet_jsDelete_ne m k k2 hk]
    exact h

theorem presenceStep_preserves_no_self (myId : String)
    (reg : List (String × Collaborator)) (e : CollabEvent)
    (h : jsGet reg myId = none) :
    jsGet (presenceStep myId reg e) myId = none := by
  cases e with
  | JOIN u =>
    by_cases hu : u.id = myId
    · simp [presenceStep, hu, h]
    · simp only [presenceStep, if_neg hu]
      rw [jsGet_jsSet]
      simp [hu, h]
  | UPDATE u =>
    by_cases hu : u.id = myId
    · simp [presenceStep, hu, h]
    · simp only [presenceStep, if_neg hu]
      rw [jsGet_jsSet]
      simp [hu, h]
  | LEAVE uid => exact jsGet_jsDelete_none reg uid myId h
  | JOIN_REQUEST u => exact h
  | SYNC_INIT t => exact h
  | HEARTBEAT uid => exact h
  | SYNC_FILES t => exact h

theorem presenceRun_no_self (myId : String) (es : List CollabEvent) :
    jsGet (presenceRun myId es) myId = none := by
  suffices h : ∀ reg, jsGet reg myId = none →
      jsGet (es.foldl (presenceStep myId) reg) myId = none by
    exact h [] rfl
  induction es with
  | nil => intro reg h; exact h
  | cons e rest ih =>
    intro reg h
    exact ih (presenceStep myId reg e) (presenceStep_preserves_no_self myId reg e h)

/-- C1: for sibling lists satisfying the path-uniqueness invariant, every
remote node with a same-path local sibling merges into a node taking the
remote transmissible fields (`content`, `status`, and `children` merged
recursively when both sides have them, the remote `children` otherwise)
while keeping the local node's `handle`, `isLocal` and `isOpen`; in
particular the local `handle` and a true `isLocal` flag survive. -/
theorem C1_merged_node_fields (L R : List FileNode)
    (hL : (L.map FileNode.path).Nodup) (hR : (R.map FileNode.path).Nodup)
    (i : Nat) (hi : i < R.length) (l : FileNode) (hl : l ∈ L)
    (hp : l.path = R[i].path) :
    ∃ node, (mergeNodes L R)[i]? = some node ∧
      node.path = R[i].path ∧
      node.content = R[i].content ∧
      node.status = R[i].status ∧
      node.handle = l.handle ∧
      node.isLocal = l.isLocal ∧
      node.isOpen = l.isOpen ∧
      (∀ rc lc, R[i].children = some rc → l.children = some lc →
        node.children = some (mergeNodes lc rc)) ∧
      ((R[i].children = none ∨ l.children = none) →
        node.children = R[i].children) := by
  have hmem : i < (R.map (mergeStep (buildMap L))).length := by simpa using hi
  have hout : (mergeNodes L R)[i]? = some (mergeStep (buildMap L) R[i]) := by
    rw [mergeNodes_eq L R hL hR, List.getElem?_append_left hmem,
      List.getElem?_map, List.getElem?_eq_getElem hi]
    rfl
  have hget : jsGet (buildMap L) (R[i]).path = some l := by
    rw [buildMap_eq L hL, ← hp]
    exact jsGet_assoc_mem L hL l hl
  have hstep : mergeStep (buildMap L) R[i] = mergeHitNode l R[i] := by
    unfold mergeStep
    rw [hget]
  refine ⟨mergeStep (buildMap L) R[i], hout, ?_, ?_, ?_, ?_, ?_, ?_, ?_, ?_⟩ <;>
    rw [hstep]
  · simp
  · simp
  · simp
  · simp
  · simp
  · simp
  · intro rc lc h1 h2
    exact mergeHitNode_children_both l R[i] rc lc h1 h2
  · intro h
    exact mergeHitNode_children_other l R[i] h

/-- Local child of the pre-seeded `agent_temp` directory used as a
witness payload. -/
def remoteChild : FileNode :=
  .mk "out.py" "agent_temp/out.py" FileType.file none (some "print(1)")
    none none none none none none

/-- A local node with a disk handle, `isLocal`, and an expanded flag. -/
def localDir : FileNode :=
  .mk "agent_temp" "agent_temp" FileType.directory none none (some [])
    (some true) none none (some true) (some 7)

/-- The same path arriving from a peer without any local-only fields. -/
def remoteDir : FileNode :=
  .mk "agent_temp" "agent_temp" FileType.directory none none
    (some [remoteChild]) none none none none none

theorem C1_merged_node_fields_witness :
    (([localDir].map FileNode.path).Nodup ∧
     ([remoteDir].map FileNode.path).Nodup ∧
     localDir ∈ [localDir] ∧
     localDir.path = ([remoteDir])[0].path ∧
     localDir.isLocal = some true ∧ localDir.handle = some 7) ∧
    (∃ node, (mergeNodes [localDir] [remoteDir])[0]? = some node ∧
      node.path = ([remoteDir])[0].path ∧
      node.content = ([remoteDir])[0].content ∧
      node.status = ([remoteDir])[0].status ∧
      node.handle = localDir.handle ∧
      node.isLocal = localDir.isLocal ∧
      node.isOpen = localDir.isOpen ∧
      (∀ rc lc, ([remoteDir])[0].children = some rc →
        localDir.children = some lc →
        node.children = some (mergeNodes lc rc)) ∧
      ((([remoteDir])[0].children = none ∨ localDir.children = none) →
        node.children = ([remoteDir])[0].children)) :=
  ⟨⟨by decide, by decide, by simp, rfl, rfl, rfl⟩,
    C1_merged_node_fields [localDir] [remoteDir] (by decide) (by decide)
      0 (by decide) localDir (by simp) rfl⟩

/-- C2: the merge result lists one node per remote sibling first, with
the remote paths in remote order, followed by exactly the local siblings
whose paths the remote list does not mention, in their original local
order; hence a local-only node at a path absent from the remote list
survives, positioned after all remote-originated siblings. -/
theorem C2_merge_order (L R : List FileNode)
    (hL : (L.map FileNode.path).Nodup) :
    ((mergeNodes L R).take R.length).map FileNode.path =
        R.map FileNode.path ∧
    (mergeNodes L R).drop R.length =
      L.filter (fun n => decide (n.path ∉ R.map FileNode.path)) := by
  have hkeys : ((buildMap L).map Prod.fst).Nodup := by
    rw [buildMap_eq L hL]
    simpa [Function.comp] using hL
  have hlen : (mergeGo (buildMap L) R).1.length = R.length := by
    have h := congrArg List.length (mergeGo_fst_paths R (buildMap L))
    simpa using h
  constructor
  · rw [mergeNodes_def, ← hlen, List.take_left]
    exact mergeGo_fst_paths R (buildMap L)
  · rw [mergeNodes_def, ← hlen, List.drop_left]
    rw [mergeGo_snd_eq R (buildMap L) hkeys, buildMap_eq L hL,
      mapValues_filter_assoc]

/-- A remote-only node at a fresh path, as created by a peer. -/
def remoteNew : FileNode :=
  .mk "b.txt" "b.txt" FileType.file none (some "hi") none none none
    none none none

theorem C2_merge_order_witness :
    (([localDir].map FileNode.path).Nodup) ∧
    (((mergeNodes [localDir] [remoteNew]).take 1).map FileNode.path =
        [remoteNew].map FileNode.path ∧
      (mergeNodes [localDir] [remoteNew]).drop 1 =
        [localDir].filter
          (fun n => decide (n.path ∉ [remoteNew].map FileNode.path))) :=
  ⟨by decide, C2_merge_order [localDir] [remoteNew] (by decide)⟩

/-- C5: merging a well-formed tree (unique sibling paths at every level,
the data-model invariant) with an identical copy of itself returns the
tree unchanged — here even the `isLocal`/`isOpen` fields agree exactly,
since they are restored from the identical local side. -/
theorem C5_merge_idempotent (T : List FileNode) (hT : wfTree T = true) :
    mergeNodes T T = T :=
  merge_self T hT

theorem wfTree_eq (l : List FileNode) :
    wfTree l = (decide ((l.map FileNode.path).Nodup) && wfAll l) := by
  rw [wfTree]

theorem wfAll_nil : wfAll [] = true := by rw [wfAll]

theorem wfAll_cons (n : FileNode) (rest : List FileNode) :
    wfAll (n :: rest) = (wfNode n && wfAll rest) := by rw [wfAll]

theorem wfNode_some (n : FileNode) (c : List FileNode)
    (hc : n.children = some c) : wfNode n = wfTree c := by
  rw [wfNode, hc]

theorem wfNode_none (n : FileNode) (hc : n.children = none) :
    wfNode n = true := by
  rw [wfNode, hc]

theorem C5_merge_idempotent_witness :
    wfTree [localDir, remoteNew] = true ∧
    mergeNodes [localDir, remoteNew] [localDir, remoteNew] =
      [localDir, remoteNew] := by
  have hwf : wfTree [localDir, remoteNew] = true := by
    rw [wfTree_eq, wfAll_cons, wfAll_cons, wfAll_nil,
      wfNode_some localDir [] rfl, wfNode_none remoteNew rfl,
      wfTree_eq, wfAll_nil]
    rfl
  exact ⟨hwf, C5_merge_idempotent [localDir, remoteNew] hwf⟩

/-- C10: when a same-path pair has a local children list but the remote
node carries no children field, the merged node keeps the remote node's
absent children — the local descendants under that path are dropped,
because the children recursion runs only when both sides have
children. -/
theorem C10_local_children_dropped (L R : List FileNode)
    (hL : (L.map FileNode.path).Nodup) (hR : (R.map FileNode.path).Nodup)
    (i : Nat) (hi : i < R.length) (l : FileNode) (hl : l ∈ L)
    (hp : l.path = R[i].path) (cs : List FileNode)
    (hlc : l.children = some cs) (hrc : R[i].children = none) :
    ∃ node, (mergeNodes L R)[i]? = some node ∧ node.children = none := by
  have hmem : i < (R.map (mergeStep (buildMap L))).length := by simpa using hi
  have hout : (mergeNodes L R)[i]? = some (mergeStep (buildMap L) R[i]) := by
    rw [mergeNodes_eq L R hL hR, List.getElem?_append_left hmem,
      List.getElem?_map, List.getElem?_eq_getElem hi]
    rfl
  have hget : jsGet (buildMap L) (R[i]).path = some l := by
    rw [buildMap_eq L hL, ← hp]
    exact jsGet_assoc_mem L hL l hl
  have hstep : mergeStep (buildMap L) R[i] = mergeHitNode l R[i] := by
    unfold mergeStep
    rw [hget]
  refine ⟨mergeStep (buildMap L) R[i], hout, ?_⟩
  rw [hstep, mergeHitNode_children_other l R[i] (Or.inl hrc), hrc]

/-- A local directory that carries descendants on disk. -/
def localDirWithKids : FileNode :=
  .mk "agent_temp" "agent_temp" FileType.directory none none
    (some [remoteChild]) (some true) none none (some true) (some 7)

/-- The same path arriving from a peer with no children field at all. -/
def remoteBare : FileNode :=
  .mk "agent_temp" "agent_temp" FileType.directory none none none
    none none none none none

theorem C10_local_children_dropped_witness :
    (([localDirWithKids].map FileNode.path).Nodup ∧
     ([remoteBare].map FileNode.path).Nodup ∧
     localDirWithKids ∈ [localDirWithKids] ∧
     localDirWithKids.path = ([remoteBare])[0].path ∧
     localDirWithKids.children = some [remoteChild] ∧
     ([remoteBare])[0].children = none) ∧
    (∃ node, (mergeNodes [localDirWithKids] [remoteBare])[0]? = some node ∧
      node.children = none) :=
  ⟨⟨by decide, by decide, by simp, rfl, rfl, rfl⟩,
    C10_local_children_dropped [localDirWithKids] [remoteBare]
      (by decide) (by decide) 0 (by decide) localDirWithKids (by simp) rfl
      [remoteChild] rfl rfl⟩

/-- C3 counterexample: after a guest's first `SYNC_INIT` (tree becomes
`[remoteNew]`), a second `SYNC_INIT` carrying the empty tree is applied
by replacement — the tree becomes `[]` — whereas merging it like a
`SYNC_FILES` update would have kept `[remoteNew]`. -/
theorem C3_second_sync_init_replaces :
    (appRun ⟨[], true, true⟩
        [CollabEvent.SYNC_INIT [remoteNew],
         CollabEvent.SYNC_INIT []]).fileTree = [] ∧
    mergeNodes [remoteNew] [] = [remoteNew] ∧
    ([] : List FileNode) ≠ [remoteNew] := by
  refine ⟨rfl, ?_, by simp⟩
  rw [mergeNodes_def, mergeGo_nil]
  rfl

/-- C3 amended: every received `SYNC_INIT`, not only the first, replaces
the local tree wholesale with the received snapshot and clears the
connecting flag; the handler never merges a `SYNC_INIT` payload. -/
theorem C3_sync_init_always_replaces (s : AppState) (t : List FileNode) :
    appHandle s (CollabEvent.SYNC_INIT t) =
      ({ s with fileTree := t, isConnecting := false }, []) := rfl

/-- A local file the guest already holds. -/
def nodeOld : FileNode :=
  .mk "a" "a" FileType.file none (some "old") none none none none
    (some true) (some 7)

/-- First half of a structurally malformed payload: duplicate sibling
path "a". -/
def badDup1 : FileNode :=
  .mk "a" "a" FileType.file none (some "new1") none none none none
    none none

/-- Second half of the malformed payload, same sibling path "a". -/
def badDup2 : FileNode :=
  .mk "a" "a" FileType.file none (some "new2") none none none none
    none none

/-- C4: the `SYNC_FILES` handler performs no structural validation — a
payload violating the sibling-path-uniqueness invariant of the data
model is merged into the local tree (which changes) instead of being
rejected wholesale with the tree left unchanged. -/
theorem C4_malformed_payload_applied :
    ¬ (([badDup1, badDup2].map FileNode.path).Nodup) ∧
    (appHandle ⟨[nodeOld], false, false⟩
        (CollabEvent.SYNC_FILES [badDup1, badDup2])).1.fileTree =
      mergeNodes [nodeOld] [badDup1, badDup2] ∧
    mergeNodes [nodeOld] [badDup1, badDup2] ≠ [nodeOld] := by
  refine ⟨by decide, rfl, ?_⟩
  have hlen : (mergeNodes [nodeOld] [badDup1, badDup2]).length = 2 := by
    rw [mergeNodes_def,
      mergeGo_cons_hit (buildMap [nodeOld]) badDup1 [badDup2] nodeOld rfl,
      mergeGo_cons_miss (jsDelete (buildMap [nodeOld]) badDup1.path)
        badDup2 [] rfl,
      mergeGo_nil]
    rfl
  intro h
  rw [h] at hlen
  simp at hlen

theorem presence_update_run (myId pid : String)
    (reg : List (String × Collaborator)) (us : List Collaborator)
    (ulast : Collaborator) (hpid : pid ≠ myId)
    (hall : ∀ u ∈ us, u.id = pid) (hlast : ulast.id = pid) :
    (us ++ [ulast]).foldl
        (fun r u => presenceStep myId r (CollabEvent.UPDATE u)) reg =
      jsSet reg pid ulast := by
  induction us generalizing reg with
  | nil =>
    simp only [List.nil_append, List.foldl_cons, List.foldl_nil]
    simp [presenceStep, hlast, hpid]
  | cons u us ih =>
    simp only [List.cons_append, List.foldl_cons]
    have hu : u.id = pid := hall u (by simp)
    have hstep : presenceStep myId reg (CollabEvent.UPDATE u) =
        jsSet reg pid u := by
      simp [presenceStep, hu, hpid]
    rw [hstep, ih (jsSet reg pid u) (fun x hx => hall x (by simp [hx]))]
    exact jsSet_jsSet reg pid u ulast

/-- C6: processing any sequence of `UPDATE` envelopes for one non-local
participant id leaves the register exactly as if only the last envelope
had been applied: the whole record of the last envelope is stored,
regardless of the records (and `lastActive` stamps) of the earlier
ones. -/
theorem C6_update_last_writer_wins (myId pid : String)
    (reg : List (String × Collaborator)) (us : List Collaborator)
    (ulast : Collaborator) (hpid : pid ≠ myId)
    (hall : ∀ u ∈ us, u.id = pid) (hlast : ulast.id = pid) :
    ((us ++ [ulast]).foldl
        (fun r u => presenceStep myId r (CollabEvent.UPDATE u)) reg =
      jsSet reg pid ulast) ∧
    jsGet ((us ++ [ulast]).foldl
        (fun r u => presenceStep myId r (CollabEvent.UPDATE u)) reg) pid =
      some ulast := by
  have h := presence_update_run myId pid reg us ulast hpid hall hlast
  refine ⟨h, ?_⟩
  rw [h, jsGet_jsSet]
  simp

/-- First update for participant p1, carrying `lastActive = 100`. -/
def updEarly : Collaborator :=
  ⟨"p1", "Coder 1", "#FF5733", some "a.txt", none, some "v1", some 100⟩

/-- Second update for p1 with an older `lastActive = 50`: processed
last, so it must win. -/
def updLate : Collaborator :=
  ⟨"p1", "Coder 1", "#FF5733", some "a.txt", none, some "v2", some 50⟩

theorem C6_update_last_writer_wins_witness :
    (("p1" : String) ≠ "me" ∧ (∀ u ∈ [updEarly], u.id = "p1") ∧
      updLate.id = "p1") ∧
    (([updEarly] ++ [updLate]).foldl
        (fun r u => presenceStep "me" r (CollabEvent.UPDATE u)) [] =
      jsSet [] "p1" updLate) ∧
    jsGet (([updEarly] ++ [updLate]).foldl
        (fun r u => presenceStep "me" r (CollabEvent.UPDATE u)) []) "p1" =
      some updLate :=
  ⟨⟨by decide, by decide, by decide⟩,
    C6_update_last_writer_wins "me" "p1" [] [updEarly] updLate
      (by decide) (by decide) (by decide)⟩

/-- C7: an envelope carrying the local participant's own id — `JOIN`,
`UPDATE`, or `LEAVE` — never changes the presence register, in any
register state reachable from the empty register under the same
handler. -/
theorem C7_self_envelopes_ignored (myId : String) (es : List CollabEvent)
    (u : Collaborator) (hu : u.id = myId) :
    presenceStep myId (presenceRun myId es) (CollabEvent.JOIN u) =
      presenceRun myId es ∧
    presenceStep myId (presenceRun myId es) (CollabEvent.UPDATE u) =
      presenceRun myId es ∧
    presenceStep myId (presenceRun myId es) (CollabEvent.LEAVE myId) =
      presenceRun myId es := by
  have hnone := presenceRun_no_self myId es
  refine ⟨by simp [presenceStep, hu], by simp [presenceStep, hu], ?_⟩
  exact jsDelete_of_get_none (presenceRun myId es) myId hnone

/-- The local user's own record, as echoed back by the medium. -/
def selfUser : Collaborator :=
  ⟨"me", "Dev 42", "#33FF57", some "a.txt", none, some "x", some 5⟩

theorem C7_self_envelopes_ignored_witness :
    selfUser.id = "me" ∧
    (presenceStep "me"
        (presenceRun "me" [CollabEvent.UPDATE updEarly])
        (CollabEvent.JOIN selfUser) =
      presenceRun "me" [CollabEvent.UPDATE updEarly] ∧
    presenceStep "me"
        (presenceRun "me" [CollabEvent.UPDATE updEarly])
        (CollabEvent.UPDATE selfUser) =
      presenceRun "me" [CollabEvent.UPDATE updEarly] ∧
    presenceStep "me"
        (presenceRun "me" [CollabEvent.UPDATE updEarly])
        (CollabEvent.LEAVE "me") =
      presenceRun "me" [CollabEvent.UPDATE updEarly]) :=
  ⟨by decide,
    C7_self_envelopes_ignored "me" [CollabEvent.UPDATE updEarly] selfUser
      (by decide)⟩

/-- C8 counterexample: an externally supplied empty-string session token
(`?session=` in the link) does not match the (absent) stored host
record, yet the constructor's `if (!token)` treats it as missing — it
mints a fresh token, claims host authority, and persists it, instead of
joining as guest as the claim requires for any supplied non-matching
token. -/
theorem C8_empty_token_counterexample :
    resolveSession (some "") none "fresh" = ("fresh", true, some "fresh") ∧
    (some "" : Option String) ≠ none := ⟨rfl, by simp⟩

/-- C8 amended: if the external token is absent or empty, a fresh token
is minted, host authority is taken, and the token is persisted in the
host-ownership record; a non-empty external token equal to the stored
record resumes as host; a non-empty external token that differs from
the stored record joins as guest, leaving the stored record
unchanged. -/
theorem C8_session_resolution (stored : Option String) (fresh t : String) :
    resolveSession none stored fresh = (fresh, true, some fresh) ∧
    resolveSession (some "") stored fresh = (fresh, true, some fresh) ∧
    (t ≠ "" → resolveSession (some t) (some t) fresh = (t, true, some t)) ∧
    (t ≠ "" → stored ≠ some t →
      resolveSession (some t) stored fresh = (t, false, stored)) := by
  refine ⟨rfl, rfl, ?_, ?_⟩
  · intro ht
    simp [resolveSession, ht]
  · intro ht hs
    simp [resolveSession, ht, hs]

theorem C8_session_resolution_witness :
    (("abc" : String) ≠ "" ∧ (some "xyz" : Option String) ≠ some "abc") ∧
    (resolveSession none (some "xyz") "f0" = ("f0", true, some "f0") ∧
     resolveSession (some "") (some "xyz") "f0" = ("f0", true, some "f0") ∧
     resolveSession (some "abc") (some "abc") "f0" =
       ("abc", true, some "abc") ∧
     resolveSession (some "abc") (some "xyz") "f0" =
       ("abc", false, some "xyz")) :=
  ⟨⟨by decide, by decide⟩,
    (C8_session_resolution (some "xyz") "f0" "abc").1,
    (C8_session_resolution (some "xyz") "f0" "abc").2.1,
    (C8_session_resolution (some "xyz") "f0" "abc").2.2.1 (by decide),
    (C8_session_resolution (some "xyz") "f0" "abc").2.2.2 (by decide)
      (by decide)⟩

/-- C9: the `JOIN_REQUEST` handler broadcasts a `SYNC_INIT` carrying the
handler's own current file tree and leaves its state untouched; the
response is not conditioned on host authority, so any participant —
including one in the guest role — answers every join request with its
own snapshot. -/
theorem C9_join_request_answered_by_all (s : AppState) (u : Collaborator) :
    (appHandle s (CollabEvent.JOIN_REQUEST u)).2 =
      [CollabEvent.SYNC_INIT s.fileTree] ∧
    (appHandle s (CollabEvent.JOIN_REQUEST u)).1 = s :=
  ⟨rfl, rfl⟩
